import Mathlib

/-!
Shallow embedding of `MultiPlanarUNet/evaluate/metrics.py`.

Conventions of the embedding:
* numpy / TensorFlow arrays become Lean lists (`List ℚ` for numeric data,
  `List ℤ` for integer label maps, `List (List ℚ)` for arrays carrying a
  trailing class axis);
* real arithmetic is modelled by `ℚ`;
* the IEEE NaN produced by a `0/0` (and more generally any division by a
  zero denominator) is modelled by `Option ℚ`: `none` stands for NaN,
  `some q` for the finite value `q`.  All denominators appearing in the
  metrics are sums of non-negative counts (plus the smoothing constant), so
  a zero denominator always comes with a zero numerator in the cases the
  spec talks about; divisions are therefore guarded by a `= 0` test;
* `np.round` / `tf.round` round half to even (banker's rounding), which is
  modelled explicitly by `roundHalfEven`;
* `np.argmax` / `tf.argmax` return the first index attaining the maximum,
  modelled by `argmaxIdx`.
-/

namespace Metrics

/-- `astype(np.bool)`: every non-zero element maps to `true`. -/
def toMask (l : List ℚ) : List Bool := l.map (fun x => decide (x ≠ 0))

/-- `s.sum()` for a boolean array: the number of `true` entries. -/
def boolSum (l : List Bool) : ℕ := l.countP id

/-- `np.logical_and(s1, s2).sum()`: the number of positions where both
boolean arrays hold `true`. -/
def andSum (s1 s2 : List Bool) : ℕ := (s1.zip s2).countP (fun q => q.1 && q.2)

/-- The dice computation of `dice` on already-boolean arrays (this is what
`dice_all` reaches after the identity cast `astype(bool)` on its masks).
`none` models the NaN produced by `0/0` when the denominator vanishes. -/
def diceB (s1 s2 : List Bool) (smooth : ℚ) : Option ℚ :=
  let num := smooth + 2 * (andSum s1 s2 : ℚ)
  let den := smooth + (boolSum s1 : ℚ) + (boolSum s2 : ℚ)
  if den = 0 then none else some (num / den)

/-- `dice(y_true, y_pred, smooth)` from `metrics.py`: flatten both inputs,
cast to boolean, and compute `(smooth + 2·|A∩B|) / (smooth + |A| + |B|)`. -/
def dice (y_true y_pred : List ℚ) (smooth : ℚ) : Option ℚ :=
  diceB (toMask y_true) (toMask y_pred) smooth

/-- Spec-side count for claim C1: the cardinality of the boolean mask
`A = {i | y[i] ≠ 0}` expressed over index sets. -/
def maskCard (l : List ℚ) : ℕ :=
  ((Finset.range l.length).filter (fun i => l.getD i 0 ≠ 0)).card

/-- Spec-side count for claim C1: `|A ∩ B|` over index sets. -/
def interCard (a b : List ℚ) : ℕ :=
  ((Finset.range (min a.length b.length)).filter
    (fun i => a.getD i 0 ≠ 0 ∧ b.getD i 0 ≠ 0)).card

/- Counting lemmas linking `List.countP` to cardinalities of index sets. -/

lemma countP_eq_card_filter_range {α : Type} (p : α → Bool) (d : α) :
    ∀ l : List α,
      l.countP p
        = ((Finset.range l.length).filter (fun i => p (l.getD i d) = true)).card := by
  intro l
  induction l with
  | nil => simp
  | cons x t ih =>
      rw [List.countP_cons]
      have hsum :
          ((Finset.range (t.length + 1)).filter
              (fun i => p ((x :: t).getD i d) = true)).card
            = Finset.sum (Finset.range (t.length + 1))
                (fun i => if p ((x :: t).getD i d) = true then 1 else 0) := by
        rw [Finset.card_filter]
      have hsplit :
          Finset.sum (Finset.range (t.length + 1))
              (fun i => if p ((x :: t).getD i d) = true then 1 else 0)
            = Finset.sum (Finset.range t.length)
                (fun i => if p ((x :: t).getD (i + 1) d) = true then 1 else 0)
              + (if p ((x :: t).getD 0 d) = true then 1 else 0) :=
        Finset.sum_range_succ' _ _
      have hgetD : ∀ i : ℕ, (x :: t).getD (i + 1) d = t.getD i d := by
        intro i; rfl
      simp only [List.length_cons, hsum, hsplit, hgetD, List.getD_cons_zero]
      rw [ih, Finset.card_filter]

lemma countP_zip_eq_card_filter_range {α β : Type} (p : α → β → Bool) (d1 : α) (d2 : β) :
    ∀ (l1 : List α) (l2 : List β),
      (l1.zip l2).countP (fun q => p q.1 q.2)
        = ((Finset.range (min l1.length l2.length)).filter
            (fun i => p (l1.getD i d1) (l2.getD i d2) = true)).card := by
  intro l1
  induction l1 with
  | nil => intro l2; simp
  | cons x t ih =>
      intro l2
      cases l2 with
      | nil => simp
      | cons y s =>
          rw [List.zip_cons_cons, List.countP_cons]
          have hmin : min (x :: t).length (y :: s).length = min t.length s.length + 1 := by
            simp [Nat.succ_min_succ]
          have hsum :
              ((Finset.range (min t.length s.length + 1)).filter
                  (fun i => p ((x :: t).getD i d1) ((y :: s).getD i d2) = true)).card
                = Finset.sum (Finset.range (min t.length s.length + 1))
                    (fun i => if p ((x :: t).getD i d1) ((y :: s).getD i d2) = true
                      then 1 else 0) := by
            rw [Finset.card_filter]
          have hsplit :
              Finset.sum (Finset.range (min t.length s.length + 1))
                  (fun i => if p ((x :: t).getD i d1) ((y :: s).getD i d2) = true
                    then 1 else 0)
                = Finset.sum (Finset.range (min t.length s.length))
                    (fun i => if p ((x :: t).getD (i + 1) d1) ((y :: s).getD (i + 1) d2) = true
                      then 1 else 0)
                  + (if p ((x :: t).getD 0 d1) ((y :: s).getD 0 d2) = true then 1 else 0) :=
            Finset.sum_range_succ' _ _
          have hgetD1 : ∀ i : ℕ, (x :: t).getD (i + 1) d1 = t.getD i d1 := by
            intro i; rfl
          have hgetD2 : ∀ i : ℕ, (y :: s).getD (i + 1) d2 = s.getD i d2 := by
            intro i; rfl
          rw [hmin, hsum, hsplit]
          simp only [hgetD1, hgetD2, List.getD_cons_zero]
          rw [ih s, Finset.card_filter]

/-- The boolean-mask sum of `dice` counts exactly the indices holding a
non-zero element. -/
lemma boolSum_toMask (l : List ℚ) : boolSum (toMask l) = maskCard l := by
  unfold boolSum toMask maskCard
  rw [List.countP_map]
  have hfun : (id ∘ fun x : ℚ => decide (x ≠ 0)) = fun x : ℚ => decide (x ≠ 0) := by
    funext x; rfl
  rw [hfun, countP_eq_card_filter_range (fun x : ℚ => decide (x ≠ 0)) 0 l]
  congr 1
  apply Finset.filter_congr
  intro i _
  simp

/-- The `logical_and` sum of `dice` counts exactly the indices where both
elements are non-zero. -/
lemma andSum_toMask (a b : List ℚ) : andSum (toMask a) (toMask b) = interCard a b := by
  unfold andSum toMask interCard
  rw [List.zip_map]
  rw [List.countP_map]
  have hfun : ((fun q : Bool × Bool => q.1 && q.2)
        ∘ Prod.map (fun x : ℚ => decide (x ≠ 0)) (fun x : ℚ => decide (x ≠ 0)))
      = fun q : ℚ × ℚ => decide (q.1 ≠ 0) && decide (q.2 ≠ 0) := by
    funext q; cases q; rfl
  rw [hfun, countP_zip_eq_card_filter_range
    (fun x y : ℚ => decide (x ≠ 0) && decide (y ≠ 0)) 0 0 a b]
  congr 1
  apply Finset.filter_congr
  intro i _
  simp

lemma andSum_le_left : ∀ s1 s2 : List Bool, andSum s1 s2 ≤ boolSum s1 := by
  intro s1
  induction s1 with
  | nil => intro s2; simp [andSum, boolSum]
  | cons x t ih =>
      intro s2
      cases s2 with
      | nil => simp [andSum, boolSum]
      | cons y s =>
          have h := ih s
          simp only [andSum, boolSum, List.zip_cons_cons, List.countP_cons] at h ⊢
          cases x <;> cases y <;> simp <;> omega

lemma andSum_le_right : ∀ s1 s2 : List Bool, andSum s1 s2 ≤ boolSum s2 := by
  intro s1
  induction s1 with
  | nil => intro s2; simp [andSum, boolSum]
  | cons x t ih =>
      intro s2
      cases s2 with
      | nil => simp [andSum, boolSum]
      | cons y s =>
          have h := ih s
          simp only [andSum, boolSum, List.zip_cons_cons, List.countP_cons] at h ⊢
          cases x <;> cases y <;> simp <;> omega

/-- C1: `dice` computes exactly
`(smooth + 2·|A∩B|) / (smooth + |A| + |B|)` where `A` and `B` are the index
sets of the non-zero positions of the flattened inputs (as long as the
denominator is non-zero, i.e. the division produces a finite value). -/
theorem dice_eq_setFormula (y_true y_pred : List ℚ) (smooth : ℚ)
    (hlen : y_true.length = y_pred.length)
    (hden : smooth + (maskCard y_true : ℚ) + (maskCard y_pred : ℚ) ≠ 0) :
    dice y_true y_pred smooth
      = some ((smooth + 2 * (interCard y_true y_pred : ℚ))
          / (smooth + (maskCard y_true : ℚ) + (maskCard y_pred : ℚ))) := by
  unfold dice diceB
  rw [boolSum_toMask, boolSum_toMask, andSum_toMask]
  simp only [hden, if_false]

/-- Witness for C1 at a concrete input. -/
theorem dice_eq_setFormula_witness :
    dice [1, 0] [1, 2] 1
      = some ((1 + 2 * (interCard [1, 0] [1, 2] : ℚ))
          / (1 + (maskCard [1, 0] : ℚ) + (maskCard [1, 2] : ℚ))) :=
  dice_eq_setFormula [1, 0] [1, 2] 1 rfl (by positivity)

/-- C7 counterexample: with `smooth = 0` and both inputs entirely zero,
`dice` hits the `0/0` case and returns NaN (`none`), which is not a value
in `[0, 1]` — so the claim as stated fails at this input. -/
theorem dice_smooth_zero_nan : dice [(0 : ℚ)] [(0 : ℚ)] 0 = none := by
  norm_num [dice, diceB, toMask, boolSum, andSum]

/-- C7 amended: with `smooth > 0` the result of `dice` is a finite value in
`(0, 1]`; with `smooth = 0` it is a finite value in `[0, 1]` provided at
least one input contains a non-zero element (otherwise it is the NaN
`0/0`). -/
theorem dice_range (y_true y_pred : List ℚ) (smooth : ℚ) :
    (0 < smooth → ∃ q, dice y_true y_pred smooth = some q ∧ 0 < q ∧ q ≤ 1)
    ∧ (smooth = 0 → 0 < boolSum (toMask y_true) + boolSum (toMask y_pred) →
        ∃ q, dice y_true y_pred smooth = some q ∧ 0 ≤ q ∧ q ≤ 1) := by
  have hk1 := andSum_le_left (toMask y_true) (toMask y_pred)
  have hk2 := andSum_le_right (toMask y_true) (toMask y_pred)
  set k : ℕ := andSum (toMask y_true) (toMask y_pred) with hk
  set a : ℕ := boolSum (toMask y_true) with ha
  set b : ℕ := boolSum (toMask y_pred) with hb
  have hnum_le : (2 * k : ℚ) ≤ (a : ℚ) + (b : ℚ) := by
    have h2 : 2 * k ≤ a + b := by omega
    exact_mod_cast h2
  constructor
  · intro hs
    have hden_pos : 0 < smooth + (a : ℚ) + (b : ℚ) := by positivity
    have hden : smooth + (a : ℚ) + (b : ℚ) ≠ 0 := ne_of_gt hden_pos
    refine ⟨(smooth + 2 * (k : ℚ)) / (smooth + (a : ℚ) + (b : ℚ)), ?_, ?_, ?_⟩
    · unfold dice diceB
      rw [← hk, ← ha, ← hb]
      simp only [hden, if_false]
    · apply div_pos _ hden_pos
      positivity
    · rw [div_le_one hden_pos]
      linarith
  · intro hs hpos
    have hab : 0 < (a : ℚ) + (b : ℚ) := by
      have : 0 < a + b := hpos
      exact_mod_cast this
    have hden_pos : 0 < smooth + (a : ℚ) + (b : ℚ) := by rw [hs]; linarith
    have hden : smooth + (a : ℚ) + (b : ℚ) ≠ 0 := ne_of_gt hden_pos
    refine ⟨(smooth + 2 * (k : ℚ)) / (smooth + (a : ℚ) + (b : ℚ)), ?_, ?_, ?_⟩
    · unfold dice diceB
      rw [← hk, ← ha, ← hb]
      simp only [hden, if_false]
    · apply div_nonneg _ (le_of_lt hden_pos)
      rw [hs]
      positivity
    · rw [div_le_one hden_pos]
      linarith

/-- Witness for C7's amended statement at a concrete input. -/
theorem dice_range_witness :
    ∃ q, dice [1] [0, 1] 1 = some q ∧ 0 < q ∧ q ≤ 1 :=
  (dice_range [1] [0, 1] 1).1 (by norm_num)

/-- The `tf.cast(y_pred > 0.5, tf.float32)` binarization used by
`one_class_dice`: strictly-greater-than-half maps to `1`, everything else
(including exactly `0.5`) to `0`. -/
def threshold05 (x : ℚ) : ℚ := if 1 / 2 < x then 1 else 0

/-- `one_class_dice(y_true, y_pred, smooth)` from `metrics.py`: binarize the
prediction at `0.5`, then the sum-of-products dice formula on raw values. -/
def one_class_dice (y_true y_pred : List ℚ) (smooth : ℚ) : Option ℚ :=
  let yp := y_pred.map threshold05
  let num := smooth + 2 * ((y_true.zip yp).map (fun q => q.1 * q.2)).sum
  let den := smooth + y_true.sum + yp.sum
  if den = 0 then none else some (num / den)

lemma sum_eq_boolSum (l : List ℚ) (h : ∀ x ∈ l, x = 0 ∨ x = 1) :
    l.sum = (boolSum (toMask l) : ℚ) := by
  induction l with
  | nil => simp [boolSum, toMask]
  | cons x t ih =>
      have hx := h x (by simp)
      have ht : ∀ y ∈ t, y = 0 ∨ y = 1 := fun y hy => h y (by simp [hy])
      have ih2 := ih ht
      rcases hx with hx | hx <;>
        simp [boolSum, toMask, List.countP_cons, hx, ih2, add_comm]

lemma map_threshold05_eq_self (l : List ℚ) (h : ∀ x ∈ l, x = 0 ∨ x = 1) :
    l.map threshold05 = l := by
  induction l with
  | nil => simp
  | cons x t ih =>
      have hx := h x (by simp)
      have ht : ∀ y ∈ t, y = 0 ∨ y = 1 := fun y hy => h y (by simp [hy])
      rcases hx with hx | hx <;>
        simp [threshold05, hx, ih ht] <;> norm_num

lemma prodSum_eq_andSum :
    ∀ (l1 l2 : List ℚ), (∀ x ∈ l1, x = 0 ∨ x = 1) → (∀ x ∈ l2, x = 0 ∨ x = 1) →
      ((l1.zip l2).map (fun q => q.1 * q.2)).sum
        = (andSum (toMask l1) (toMask l2) : ℚ) := by
  intro l1
  induction l1 with
  | nil => intro l2 _ _; simp [andSum, toMask]
  | cons x t ih =>
      intro l2 h1 h2
      cases l2 with
      | nil => simp [andSum, toMask]
      | cons y s =>
          have hx := h1 x (by simp)
          have hy := h2 y (by simp)
          have ht : ∀ z ∈ t, z = 0 ∨ z = 1 := fun z hz => h1 z (by simp [hz])
          have hs : ∀ z ∈ s, z = 0 ∨ z = 1 := fun z hz => h2 z (by simp [hz])
          have ih2 := ih s ht hs
          rcases hx with hx | hx <;> rcases hy with hy | hy <;>
            simp [andSum, toMask, List.zip_cons_cons, List.countP_cons, hx, hy, ih2,
              add_comm]

/-- C6: on inputs whose elements are all exactly `0` or `1`,
`one_class_dice` (threshold + sum of products) coincides with `dice`
(boolean masks + logical AND), for every smoothing constant. -/
theorem one_class_dice_eq_dice (y_true y_pred : List ℚ) (smooth : ℚ)
    (hlen : y_true.length = y_pred.length)
    (h1 : ∀ x ∈ y_true, x = 0 ∨ x = 1) (h2 : ∀ x ∈ y_pred, x = 0 ∨ x = 1) :
    one_class_dice y_true y_pred smooth = dice y_true y_pred smooth := by
  have e1 := map_threshold05_eq_self y_pred h2
  have e2 := sum_eq_boolSum y_true h1
  have e3 := sum_eq_boolSum y_pred h2
  have e4 := prodSum_eq_andSum y_true y_pred h1 h2
  simp only [one_class_dice, dice, diceB, e1, e2, e3, e4]

/-- Witness for C6 at a concrete input. -/
theorem one_class_dice_eq_dice_witness :
    one_class_dice [1, 0, 1] [1, 1, 0] 1 = dice [1, 0, 1] [1, 1, 0] 1 :=
  one_class_dice_eq_dice [1, 0, 1] [1, 1, 0] 1 rfl (by decide) (by decide)

/-- `np.round` / `tf.round`: round to the nearest integer, rounding halves
to the nearest even integer (banker's rounding). -/
def roundHalfEven (x : ℚ) : ℚ :=
  let f : ℤ := ⌊x⌋
  let r : ℚ := x - f
  if r < 1 / 2 then (f : ℚ)
  else if 1 / 2 < r then (f : ℚ) + 1
  else if f % 2 = 0 then (f : ℚ) else (f : ℚ) + 1

/-- `precision(y_true, y_pred)` from `metrics.py`: round the prediction,
`tp = Σ y_true·ŷ`, `fp = Σ (¬y_true)·ŷ`, return `tp/(tp+fp)` (`none` models
the NaN of a `0/0`). -/
def precision (y_true y_pred : List ℚ) : Option ℚ :=
  let yp := y_pred.map roundHalfEven
  let not_true := y_true.map (fun x => if x ≠ 0 then (0 : ℚ) else 1)
  let tp := ((y_true.zip yp).map (fun q => q.1 * q.2)).sum
  let fp := ((not_true.zip yp).map (fun q => q.1 * q.2)).sum
  if tp + fp = 0 then none else some (tp / (tp + fp))

/-- `recall(y_true, y_pred)` from `metrics.py`: round the prediction,
`tp = Σ y_true·ŷ`, return `tp / Σ y_true` (`none` models the NaN of a
`0/0`). -/
def «recall» (y_true y_pred : List ℚ) : Option ℚ :=
  let yp := y_pred.map roundHalfEven
  let tp := ((y_true.zip yp).map (fun q => q.1 * q.2)).sum
  let relevant := y_true.sum
  if relevant = 0 then none else some (tp / relevant)

lemma zip_prodSum_zero_left (l1 l2 : List ℚ) (h : ∀ x ∈ l1, x = 0) :
    ((l1.zip l2).map (fun q => q.1 * q.2)).sum = 0 := by
  induction l1 generalizing l2 with
  | nil => simp
  | cons x t ih =>
      cases l2 with
      | nil => simp
      | cons y s =>
          have hx : x = 0 := h x (by simp)
          have ht : ∀ z ∈ t, z = 0 := fun z hz => h z (by simp [hz])
          simp [hx, ih s ht]

lemma zip_prodSum_zero_right (l1 l2 : List ℚ) (h : ∀ x ∈ l2, x = 0) :
    ((l1.zip l2).map (fun q => q.1 * q.2)).sum = 0 := by
  induction l1 generalizing l2 with
  | nil => simp
  | cons x t ih =>
      cases l2 with
      | nil => simp
      | cons y s =>
          have hy : y = 0 := h y (by simp)
          have hs : ∀ z ∈ s, z = 0 := fun z hz => h z (by simp [hz])
          simp [hy, ih s hs]

lemma roundHalfEven_zero : roundHalfEven 0 = 0 := by
  norm_num [roundHalfEven]

/-- C5: when `y_true` and `y_pred` are entirely zero, both `precision` and
`recall` hit a `0/0` division and return NaN (`none`) — not an exception
and not the value `0`. -/
theorem precision_recall_all_zero_nan (y_true y_pred : List ℚ)
    (h1 : ∀ x ∈ y_true, x = 0) (h2 : ∀ x ∈ y_pred, x = 0) :
    precision y_true y_pred = none ∧ «recall» y_true y_pred = none := by
  have hyp0 : ∀ z ∈ y_pred.map roundHalfEven, z = 0 := by
    intro z hz
    rcases List.mem_map.1 hz with ⟨w, hw, hwz⟩
    have hw0 : w = 0 := h2 w hw
    rw [← hwz, hw0, roundHalfEven_zero]
  have htp : ((y_true.zip (y_pred.map roundHalfEven)).map (fun q => q.1 * q.2)).sum = 0 :=
    zip_prodSum_zero_left _ _ h1
  have hfp :
      (((y_true.map (fun x => if x ≠ 0 then (0 : ℚ) else 1)).zip
          (y_pred.map roundHalfEven)).map (fun q => q.1 * q.2)).sum = 0 :=
    zip_prodSum_zero_right _ _ hyp0
  have hsum : y_true.sum = 0 := List.sum_eq_zero h1
  constructor
  · simp only [precision, htp, hfp]
    norm_num
  · simp only [«recall», htp, hsum]
    norm_num

/-- Witness for C5 at a concrete input. -/
theorem precision_recall_all_zero_nan_witness :
    precision [0, 0] [0, 0] = none ∧ «recall» [0, 0] [0, 0] = none :=
  precision_recall_all_zero_nan [0, 0] [0, 0] (by decide) (by decide)

/-- C10: `precision`/`recall` round with round-half-to-even, so an exact
prediction of `k + 0.5` goes to the nearest even integer — in particular
`0.5` rounds to `0` (a negative prediction) while `1.5` rounds to `2` — and
`one_class_dice`'s strict `y_pred > 0.5` threshold also maps exactly `0.5`
to `0`. -/
theorem half_rounds_to_even :
    (∀ k : ℤ, roundHalfEven ((k : ℚ) + 1 / 2)
        = ((if k % 2 = 0 then k else k + 1 : ℤ) : ℚ))
    ∧ roundHalfEven (1 / 2) = 0 ∧ roundHalfEven (3 / 2) = 2
    ∧ threshold05 (1 / 2) = 0 := by
  have hmain : ∀ k : ℤ, roundHalfEven ((k : ℚ) + 1 / 2)
      = ((if k % 2 = 0 then k else k + 1 : ℤ) : ℚ) := by
    intro k
    have hfloor : ⌊(k : ℚ) + 1 / 2⌋ = k := by
      rw [add_comm, Int.floor_add_int]
      norm_num
    have hr : (k : ℚ) + 1 / 2 - (k : ℚ) = 1 / 2 := by ring
    simp only [roundHalfEven, hfloor]
    rw [hr]
    norm_num
  refine ⟨hmain, ?_, ?_, ?_⟩
  · have h0 := hmain 0
    norm_num at h0
    simpa using h0
  · have h1 := hmain 1
    norm_num at h1
    simpa using h1
  · norm_num [threshold05]

/-- `np.argmax` / `tf.argmax` over one row of the trailing class axis: the
first index attaining the maximum (`0` on an empty row). -/
def argmaxIdx : List ℚ → ℕ
  | [] => 0
  | [_] => 0
  | x :: y :: t =>
      if x < (y :: t).getD (argmaxIdx (y :: t)) 0 then argmaxIdx (y :: t) + 1 else 0

/-- `tf.argmax(y_pred, axis=-1)` followed by the flatten/int cast: one hard
label per position. -/
def predLabels (y_pred : List (List ℚ)) : List ℤ :=
  y_pred.map (fun row => (argmaxIdx row : ℤ))

/-- `sparse_fg_recall(y_true, y_pred, bg_class)` from `metrics.py`: argmax
the prediction, drop the positions whose TRUE label equals `bg_class`, and
return the fraction of remaining positions where prediction equals truth
(`none` models the NaN of `tf.reduce_mean` over an empty tensor). -/
def sparse_fg_recall (y_true : List ℤ) (y_pred : List (List ℚ)) (bg_class : ℤ) : Option ℚ :=
  let yp := predLabels y_pred
  let pairs := (y_true.zip yp).filter (fun q => decide (q.1 ≠ bg_class))
  if pairs.length = 0 then none
  else some ((pairs.countP (fun q => decide (q.1 = q.2)) : ℚ) / (pairs.length : ℚ))

/-- `sparse_fg_precision(y_true, y_pred, bg_class)` from `metrics.py`: same
as `sparse_fg_recall` except the positions dropped are those whose
PREDICTED (argmax) label equals `bg_class`. -/
def sparse_fg_precision (y_true : List ℤ) (y_pred : List (List ℚ)) (bg_class : ℤ) : Option ℚ :=
  let yp := predLabels y_pred
  let pairs := (y_true.zip yp).filter (fun q => decide (q.2 ≠ bg_class))
  if pairs.length = 0 then none
  else some ((pairs.countP (fun q => decide (q.1 = q.2)) : ℚ) / (pairs.length : ℚ))

/-- Spec-side formulation for claim C2, written once with the only varying
piece — which array supplies the foreground mask — as a parameter: keep the
index positions where the mask source differs from `bg`, and return the
fraction of kept positions whose predicted label equals the true label
(NaN when no position is kept). -/
def maskedAgreement (maskFromPred : Bool) (y_true : List ℤ) (y_pred : List (List ℚ))
    (bg : ℤ) : Option ℚ :=
  let yp := predLabels y_pred
  let keep := (Finset.range (min y_true.length yp.length)).filter
    (fun i => (if maskFromPred then yp.getD i 0 else y_true.getD i 0) ≠ bg)
  if keep.card = 0 then none
  else some (((keep.filter (fun i => y_true.getD i 0 = yp.getD i 0)).card : ℚ) / (keep.card : ℚ))

lemma zip_filter_length_card (l1 l2 : List ℤ) (q : ℤ × ℤ → Bool) :
    ((l1.zip l2).filter q).length
      = ((Finset.range (min l1.length l2.length)).filter
          (fun i => q (l1.getD i 0, l2.getD i 0) = true)).card := by
  rw [← List.countP_eq_length_filter]
  exact countP_zip_eq_card_filter_range (fun a b => q (a, b)) 0 0 l1 l2

lemma zip_filter_countP_card (l1 l2 : List ℤ) (p q : ℤ × ℤ → Bool) :
    (((l1.zip l2).filter q).countP p)
      = ((Finset.range (min l1.length l2.length)).filter
          (fun i => (p (l1.getD i 0, l2.getD i 0) && q (l1.getD i 0, l2.getD i 0)) = true)).card := by
  rw [List.countP_filter]
  exact countP_zip_eq_card_filter_range (fun a b => p (a, b) && q (a, b)) 0 0 l1 l2

/-- C2: `sparse_fg_recall` keeps exactly the positions whose TRUE label
differs from `bg_class` while `sparse_fg_precision` keeps exactly those
whose PREDICTED (argmax) label differs from `bg_class`; on the kept
positions both return the fraction where prediction equals truth, and the
two coincide with one parametric definition that differs only in which
array supplies the mask. -/
theorem sparse_fg_recall_precision_masking (y_true : List ℤ) (y_pred : List (List ℚ))
    (bg_class : ℤ) (hlen : y_true.length = y_pred.length) :
    sparse_fg_recall y_true y_pred bg_class = maskedAgreement false y_true y_pred bg_class
    ∧ sparse_fg_precision y_true y_pred bg_class = maskedAgreement true y_true y_pred bg_class := by
  constructor
  · simp only [sparse_fg_recall, maskedAgreement]
    rw [zip_filter_length_card y_true (predLabels y_pred) (fun q => decide (q.1 ≠ bg_class)),
      zip_filter_countP_card y_true (predLabels y_pred)
        (fun q => decide (q.1 = q.2)) (fun q => decide (q.1 ≠ bg_class))]
    have hkeep :
        ((Finset.range (min y_true.length (predLabels y_pred).length)).filter
            (fun i => (fun q : ℤ × ℤ => decide (q.1 ≠ bg_class))
              (y_true.getD i 0, (predLabels y_pred).getD i 0) = true))
          = ((Finset.range (min y_true.length (predLabels y_pred).length)).filter
              (fun i => (if false then (predLabels y_pred).getD i 0 else y_true.getD i 0)
                ≠ bg_class)) := by
      apply Finset.filter_congr
      intro i _
      simp
    have hnum :
        ((Finset.range (min y_true.length (predLabels y_pred).length)).filter
            (fun i => ((fun q : ℤ × ℤ => decide (q.1 = q.2))
                  (y_true.getD i 0, (predLabels y_pred).getD i 0)
                && (fun q : ℤ × ℤ => decide (q.1 ≠ bg_class))
                  (y_true.getD i 0, (predLabels y_pred).getD i 0)) = true))
          = (((Finset.range (min y_true.length (predLabels y_pred).length)).filter
              (fun i => (if false then (predLabels y_pred).getD i 0 else y_true.getD i 0)
                ≠ bg_class)).filter
                  (fun i => y_true.getD i 0 = (predLabels y_pred).getD i 0)) := by
      rw [Finset.filter_filter]
      apply Finset.filter_congr
      intro i _
      simp [and_comm]
    rw [hkeep, hnum]
  · simp only [sparse_fg_precision, maskedAgreement]
    rw [zip_filter_length_card y_true (predLabels y_pred) (fun q => decide (q.2 ≠ bg_class)),
      zip_filter_countP_card y_true (predLabels y_pred)
        (fun q => decide (q.1 = q.2)) (fun q => decide (q.2 ≠ bg_class))]
    have hkeep :
        ((Finset.range (min y_true.length (predLabels y_pred).length)).filter
            (fun i => (fun q : ℤ × ℤ => decide (q.2 ≠ bg_class))
              (y_true.getD i 0, (predLabels y_pred).getD i 0) = true))
          = ((Finset.range (min y_true.length (predLabels y_pred).length)).filter
              (fun i => (if true then (predLabels y_pred).getD i 0 else y_true.getD i 0)
                ≠ bg_class)) := by
      apply Finset.filter_congr
      intro i _
      simp
    have hnum :
        ((Finset.range (min y_true.length (predLabels y_pred).length)).filter
            (fun i => ((fun q : ℤ × ℤ => decide (q.1 = q.2))
                  (y_true.getD i 0, (predLabels y_pred).getD i 0)
                && (fun q : ℤ × ℤ => decide (q.2 ≠ bg_class))
                  (y_true.getD i 0, (predLabels y_pred).getD i 0)) = true))
          = (((Finset.range (min y_true.length (predLabels y_pred).length)).filter
              (fun i => (if true then (predLabels y_pred).getD i 0 else y_true.getD i 0)
                ≠ bg_class)).filter
                  (fun i => y_true.getD i 0 = (predLabels y_pred).getD i 0)) := by
      rw [Finset.filter_filter]
      apply Finset.filter_congr
      intro i _
      simp [and_comm]
    rw [hkeep, hnum]
    simp

/-- Witness for C2 at a concrete input (the spec's own worked example:
true labels `[0,1,2,1]`, predicted rows argmax to `[0,1,1,1]`). -/
theorem sparse_fg_recall_precision_masking_witness :
    sparse_fg_recall [0, 1, 2, 1] [[1, 0, 0], [0, 1, 0], [0, 1, 0], [0, 1, 0]] 0
        = maskedAgreement false [0, 1, 2, 1] [[1, 0, 0], [0, 1, 0], [0, 1, 0], [0, 1, 0]] 0
    ∧ sparse_fg_precision [0, 1, 2, 1] [[1, 0, 0], [0, 1, 0], [0, 1, 0], [0, 1, 0]] 0
        = maskedAgreement true [0, 1, 2, 1] [[1, 0, 0], [0, 1, 0], [0, 1, 0], [0, 1, 0]] 0 :=
  sparse_fg_recall_precision_masking [0, 1, 2, 1]
    [[1, 0, 0], [0, 1, 0], [0, 1, 0], [0, 1, 0]] 0 rfl

/-- C8: when every position of `y_true` equals `bg_class`, the foreground
mask of `sparse_fg_recall` removes everything and the mean over the empty
set is NaN (`none`) — not an error and not `0`. -/
theorem sparse_fg_recall_all_bg_nan (y_true : List ℤ) (y_pred : List (List ℚ)) (bg_class : ℤ)
    (h : ∀ x ∈ y_true, x = bg_class) :
    sparse_fg_recall y_true y_pred bg_class = none := by
  simp only [sparse_fg_recall]
  have hnil : (y_true.zip (predLabels y_pred)).filter (fun q => decide (q.1 ≠ bg_class)) = [] := by
    rw [List.filter_eq_nil_iff]
    intro q hq
    have hq1 : q.1 ∈ y_true := (List.of_mem_zip hq).1
    simp [h q.1 hq1]
  rw [hnil]
  simp

/-- Witness for C8 at a concrete input. -/
theorem sparse_fg_recall_all_bg_nan_witness :
    sparse_fg_recall [0, 0] [[0, 1], [1, 0]] 0 = none :=
  sparse_fg_recall_all_bg_nan [0, 0] [[0, 1], [1, 0]] 0 (by decide)

/-- `tf.argmax(y_pred, axis=-1)` as natural-number labels for the
confusion-matrix metrics. -/
def predLabelsN (y_pred : List (List ℚ)) : List ℕ := y_pred.map argmaxIdx

/-- `tf.confusion_matrix` sizes itself from the data:
`max(observed true labels, observed predicted labels) + 1`. -/
def numClasses (t p : List ℕ) : ℕ := (t ++ p).foldr max 0 + 1

/-- Confusion-matrix entry `cm[i][j]`: the number of positions whose true
label is `i` and whose predicted label is `j`. -/
def cmEntry (t p : List ℕ) (i j : ℕ) : ℕ :=
  (t.zip p).countP (fun q => decide (q.1 = i) && decide (q.2 = j))

/-- `tf.reduce_sum(cm, axis=0)` at column `j`. -/
def colSum (t p : List ℕ) (j : ℕ) : ℕ :=
  ((List.range (numClasses t p)).map (fun i => cmEntry t p i j)).sum

/-- `tf.reduce_sum(cm, axis=1)` at row `i`. -/
def rowSum (t p : List ℕ) (i : ℕ) : ℕ :=
  ((List.range (numClasses t p)).map (fun j => cmEntry t p i j)).sum

/-- Float division of two counts: `none` models the NaN of a `0/0` (the
numerators below are always at most the denominators, so a zero denominator
means a `0/0`). -/
def fdiv (a b : ℕ) : Option ℚ := if b = 0 then none else some ((a : ℚ) / b)

/-- `(2·p·r)/(p+r)` under IEEE semantics: NaN operands propagate, and a
zero denominator (possible only as `0/0` here since `p, r ≥ 0`) gives NaN. -/
def fharm (a b : Option ℚ) : Option ℚ :=
  match a, b with
  | some x, some y => if x + y = 0 then none else some (2 * x * y / (x + y))
  | _, _ => none

/-- `tf.reduce_mean` over a float vector: NaN when the vector is empty or
contains a NaN, the arithmetic mean otherwise. -/
def fmean (l : List (Option ℚ)) : Option ℚ :=
  if l.length = 0 then none
  else if l.any (fun x => x.isNone) then none
  else some ((l.map (fun x => x.getD 0)).sum / (l.length : ℚ))

/-- `sparse_mean_fg_f1(y_true, y_pred)` from `metrics.py`: argmax the
prediction, build the confusion matrix, per-class precision
`diag/column-sum` and recall `diag/row-sum`, per-class F1
`2·p·r/(p+r)`, and the mean of `f1s[1:]`. -/
def sparse_mean_fg_f1 (y_true : List ℕ) (y_pred : List (List ℚ)) : Option ℚ :=
  let t := y_true
  let p := predLabelsN y_pred
  let n := numClasses t p
  let precisions := (List.range n).map (fun i => fdiv (cmEntry t p i i) (colSum t p i))
  let recalls := (List.range n).map (fun i => fdiv (cmEntry t p i i) (rowSum t p i))
  let f1s := (precisions.zip recalls).map (fun q => fharm q.1 q.2)
  fmean (f1s.drop 1)

lemma fdiv_nonneg {a b : ℕ} {x : ℚ} (h : fdiv a b = some x) : 0 ≤ x := by
  unfold fdiv at h
  by_cases hb : b = 0
  · simp [hb] at h
  · simp only [hb, if_false, Option.some.injEq] at h
    rw [← h]
    positivity

/-- C3: for every class `i` of the confusion matrix, per-class precision is
`cm[i][i]` over the `i`-th column sum and per-class recall is `cm[i][i]`
over the `i`-th row sum; their F1 equals `2·p·r/(p+r)` exactly when `p` and
`r` are finite and not both zero (for these non-negative ratios "not both
zero" is the same as `p + r ≠ 0`), is NaN when `p + r = 0`, and the value
returned by `sparse_mean_fg_f1` is the mean of these per-class F1 entries
over all classes except index `0`. -/
theorem sparse_mean_fg_f1_spec (y_true : List ℕ) (y_pred : List (List ℚ))
    (i : ℕ) (pr rc : ℚ)
    (hlen : y_true.length = y_pred.length) (hne : y_true ≠ [])
    (hpr : fdiv (cmEntry y_true (predLabelsN y_pred) i i)
        (colSum y_true (predLabelsN y_pred) i) = some pr)
    (hrc : fdiv (cmEntry y_true (predLabelsN y_pred) i i)
        (rowSum y_true (predLabelsN y_pred) i) = some rc) :
    fharm (some pr) (some rc)
        = (if pr + rc = 0 then none else some (2 * pr * rc / (pr + rc)))
    ∧ (¬(pr = 0 ∧ rc = 0) ↔ pr + rc ≠ 0)
    ∧ sparse_mean_fg_f1 y_true y_pred
        = fmean (((List.range (numClasses y_true (predLabelsN y_pred))).drop 1).map
            (fun j => fharm
              (fdiv (cmEntry y_true (predLabelsN y_pred) j j)
                (colSum y_true (predLabelsN y_pred) j))
              (fdiv (cmEntry y_true (predLabelsN y_pred) j j)
                (rowSum y_true (predLabelsN y_pred) j)))) := by
  have hpr0 : 0 ≤ pr := fdiv_nonneg hpr
  have hrc0 : 0 ≤ rc := fdiv_nonneg hrc
  refine ⟨rfl, ?_, ?_⟩
  · constructor
    · intro hnb hsum
      apply hnb
      constructor <;> linarith
    · intro hsum hb
      rcases hb with ⟨h1, h2⟩
      rw [h1, h2] at hsum
      simp at hsum
  · simp only [sparse_mean_fg_f1]
    rw [List.zip_map', List.map_map, List.map_drop]
    rfl

/-- Witness for C3 at a concrete input: true labels `[0,1,1]`, predicted
rows argmax to `[0,1,0]`, class `i = 1` has precision `1/1` and recall
`1/2`. -/
theorem sparse_mean_fg_f1_spec_witness :
    fharm (some 1) (some (1 / 2))
        = (if (1 : ℚ) + 1 / 2 = 0 then none else some (2 * 1 * (1 / 2) / (1 + 1 / 2)))
    ∧ (¬((1 : ℚ) = 0 ∧ (1 / 2 : ℚ) = 0) ↔ (1 : ℚ) + 1 / 2 ≠ 0)
    ∧ sparse_mean_fg_f1 [0, 1, 1] [[1, 0], [0, 1], [1, 0]]
        = fmean (((List.range (numClasses [0, 1, 1]
              (predLabelsN [[1, 0], [0, 1], [1, 0]]))).drop 1).map
            (fun j => fharm
              (fdiv (cmEntry [0, 1, 1] (predLabelsN [[1, 0], [0, 1], [1, 0]]) j j)
                (colSum [0, 1, 1] (predLabelsN [[1, 0], [0, 1], [1, 0]]) j))
              (fdiv (cmEntry [0, 1, 1] (predLabelsN [[1, 0], [0, 1], [1, 0]]) j j)
                (rowSum [0, 1, 1] (predLabelsN [[1, 0], [0, 1], [1, 0]]) j)))) :=
  by
  refine sparse_mean_fg_f1_spec [0, 1, 1] [[1, 0], [0, 1], [1, 0]] 1 1 (1 / 2)
    rfl (by decide) ?_ ?_
  · have hp : predLabelsN [[1, 0], [0, 1], [1, 0]] = [0, 1, 0] := by
      norm_num [predLabelsN, argmaxIdx]
    rw [hp]
    have h1 : cmEntry [0, 1, 1] [0, 1, 0] 1 1 = 1 := by decide
    have h2 : colSum [0, 1, 1] [0, 1, 0] 1 = 1 := by decide
    rw [h1, h2]
    norm_num [fdiv]
  · have hp : predLabelsN [[1, 0], [0, 1], [1, 0]] = [0, 1, 0] := by
      norm_num [predLabelsN, argmaxIdx]
    rw [hp]
    have h1 : cmEntry [0, 1, 1] [0, 1, 0] 1 1 = 1 := by decide
    have h3 : rowSum [0, 1, 1] [0, 1, 0] 1 = 2 := by decide
    rw [h1, h3]
    norm_num [fdiv]

/-- Boolean mask `y == c` holds somewhere iff `c` occurs in `y`
(`np.any`). -/
lemma any_mask_iff_mem (l : List ℤ) (c : ℤ) :
    ((l.map (fun x => decide (x = c))).any id = true) ↔ c ∈ l := by
  simp only [List.any_eq_true, List.mem_map, id]
  constructor
  · rintro ⟨b, ⟨x, hx, rfl⟩, hb⟩
    have hxc : x = c := of_decide_eq_true hb
    rwa [← hxc]
  · intro h
    exact ⟨true, ⟨c, h, by simp⟩, rfl⟩

lemma boolSum_pos_of_any {l : List Bool} (h : l.any id = true) : 0 < boolSum l := by
  unfold boolSum
  rw [List.countP_pos_iff]
  rcases List.any_eq_true.1 h with ⟨x, hx, hpx⟩
  exact ⟨x, hx, hpx⟩

/-- A shared bound: when the denominator is forced positive (non-negative
`smooth`, and either `smooth` positive or some mask element set), `diceB`
returns a finite value in `[0, 1]`. -/
lemma diceB_unit (s1 s2 : List Bool) (smooth : ℚ) (hs : 0 ≤ smooth)
    (hpos : 0 < smooth ∨ 0 < boolSum s1 + boolSum s2) :
    ∃ q, diceB s1 s2 smooth = some q ∧ 0 ≤ q ∧ q ≤ 1 := by
  have hk1 := andSum_le_left s1 s2
  have hk2 := andSum_le_right s1 s2
  have hden_pos : 0 < smooth + (boolSum s1 : ℚ) + (boolSum s2 : ℚ) := by
    rcases hpos with hpos | hpos
    · have h1 : (0 : ℚ) ≤ boolSum s1 := Nat.cast_nonneg _
      have h2 : (0 : ℚ) ≤ boolSum s2 := Nat.cast_nonneg _
      linarith
    · have h1 : (0 : ℚ) < (boolSum s1 : ℚ) + (boolSum s2 : ℚ) := by
        exact_mod_cast hpos
      linarith
  have hden : smooth + (boolSum s1 : ℚ) + (boolSum s2 : ℚ) ≠ 0 := ne_of_gt hden_pos
  refine ⟨(smooth + 2 * (andSum s1 s2 : ℚ))
      / (smooth + (boolSum s1 : ℚ) + (boolSum s2 : ℚ)), ?_, ?_, ?_⟩
  · unfold diceB
    simp only [hden, if_false]
  · apply div_nonneg _ (le_of_lt hden_pos)
    positivity
  · rw [div_le_one hden_pos]
    have hcast : (2 * andSum s1 s2 : ℚ) ≤ (boolSum s1 : ℚ) + (boolSum s2 : ℚ) := by
      have h2 : 2 * andSum s1 s2 ≤ boolSum s1 + boolSum s2 := by omega
      exact_mod_cast h2
    linarith

/-- Insertion of one value into a sorted list (used to model the sorted
output of `np.unique`). -/
def insertSorted (x : ℤ) : List ℤ → List ℤ
  | [] => [x]
  | y :: t => if x ≤ y then x :: y :: t else y :: insertSorted x t

/-- Insertion sort over `ℤ`. -/
def sortInts (l : List ℤ) : List ℤ := l.foldr insertSorted []

/-- `np.unique(y_true)`: the sorted list of the distinct values. -/
def uniqueSorted (l : List ℤ) : List ℤ := (sortInts l).dedup

/-- The ordered class list `dice_all` iterates over: `np.unique(y_true)` or
`np.arange(n_classes)` (with `n_classes=1` promoted to `2`), with class `0`
filtered out when `ignore_zero` is set. -/
def retainedClasses (y_true : List ℤ) (n_classes : Option ℕ) (ignore_zero : Bool) : List ℤ :=
  let classes0 : List ℤ :=
    match n_classes with
    | none => uniqueSorted y_true
    | some n => (List.range (if n = 1 then 2 else n)).map (fun k => (k : ℤ))
  if ignore_zero then classes0.filter (fun c => decide (c ≠ 0)) else classes0

/-- One entry of the `dice_all` result vector for class `c`: pre-filled NaN
(`none`) that is only overwritten when the class occurs somewhere (and, with
`skip_if_no_y`, only when it occurs in the ground truth). -/
def diceAllEntry (y_true y_pred : List ℤ) (smooth : ℚ) (skip_if_no_y : Bool)
    (c : ℤ) : Option ℚ :=
  let s1 := y_true.map (fun x => decide (x = c))
  if skip_if_no_y && !(s1.any id) then none
  else
    let s2 := y_pred.map (fun x => decide (x = c))
    if s1.any id || s2.any id then diceB s1 s2 smooth else none

/-- `dice_all(y_true, y_pred, smooth, n_classes, ignore_zero, skip_if_no_y)`
from `metrics.py`: one entry per retained class. -/
def dice_all (y_true y_pred : List ℤ) (smooth : ℚ) (n_classes : Option ℕ)
    (ignore_zero skip_if_no_y : Bool) : List (Option ℚ) :=
  (retainedClasses y_true n_classes ignore_zero).map
    (diceAllEntry y_true y_pred smooth skip_if_no_y)

/-- C4: the `dice_all` output is the per-retained-class entry vector; with
`skip_if_no_y = False` the entry for class `c` is NaN exactly when `c`
occurs in neither input and is a finite value in `[0, 1]` whenever it
occurs in at least one; with `skip_if_no_y = True` the entry is
additionally NaN whenever `c` is absent from `y_true`, even if present in
`y_pred`. -/
theorem dice_all_entry_spec (y_true y_pred : List ℤ) (smooth : ℚ)
    (n_classes : Option ℕ) (ignore_zero skip_if_no_y : Bool) (c : ℤ)
    (hs : 0 ≤ smooth) :
    dice_all y_true y_pred smooth n_classes ignore_zero skip_if_no_y
        = (retainedClasses y_true n_classes ignore_zero).map
            (diceAllEntry y_true y_pred smooth skip_if_no_y)
    ∧ (skip_if_no_y = false →
        ((diceAllEntry y_true y_pred smooth false c = none ↔ (c ∉ y_true ∧ c ∉ y_pred))
        ∧ ((c ∈ y_true ∨ c ∈ y_pred) →
            ∃ q, diceAllEntry y_true y_pred smooth false c = some q ∧ 0 ≤ q ∧ q ≤ 1)))
    ∧ (skip_if_no_y = true → c ∉ y_true →
        diceAllEntry y_true y_pred smooth true c = none) := by
  refine ⟨rfl, ?_, ?_⟩
  · intro _
    have hbound : (c ∈ y_true ∨ c ∈ y_pred) →
        ∃ q, diceAllEntry y_true y_pred smooth false c = some q ∧ 0 ≤ q ∧ q ≤ 1 := by
      intro hmem
      have hany : ((y_true.map (fun x => decide (x = c))).any id
          || (y_pred.map (fun x => decide (x = c))).any id) = true := by
        rcases hmem with hmem | hmem
        · rw [Bool.or_eq_true]
          exact Or.inl ((any_mask_iff_mem y_true c).2 hmem)
        · rw [Bool.or_eq_true]
          exact Or.inr ((any_mask_iff_mem y_pred c).2 hmem)
      have hpos : 0 < boolSum (y_true.map (fun x => decide (x = c)))
          + boolSum (y_pred.map (fun x => decide (x = c))) := by
        have hor := hany
        rw [Bool.or_eq_true] at hor
        rcases hor with h | h
        · have := boolSum_pos_of_any h
          omega
        · have := boolSum_pos_of_any h
          omega
      rcases diceB_unit (y_true.map (fun x => decide (x = c)))
          (y_pred.map (fun x => decide (x = c))) smooth hs (Or.inr hpos) with ⟨q, hq, h0, h1⟩
      refine ⟨q, ?_, h0, h1⟩
      simp only [diceAllEntry, Bool.false_and, Bool.not_false, if_false, Bool.if_false_left]
      rw [hany]
      simpa using hq
    refine ⟨⟨?_, ?_⟩, hbound⟩
    · intro hnone
      by_contra hmem
      rw [not_and_or, not_not, not_not] at hmem
      rcases hbound hmem with ⟨q, hq, _, _⟩
      rw [hnone] at hq
      exact Option.noConfusion hq
    · rintro ⟨h1, h2⟩
      have ha1 : (y_true.map (fun x => decide (x = c))).any id = false := by
        rw [← Bool.not_eq_true]
        intro hc
        exact h1 ((any_mask_iff_mem y_true c).1 hc)
      have ha2 : (y_pred.map (fun x => decide (x = c))).any id = false := by
        rw [← Bool.not_eq_true]
        intro hc
        exact h2 ((any_mask_iff_mem y_pred c).1 hc)
      simp only [diceAllEntry, ha1, ha2]
      simp
  · intro _ h1
    have ha1 : (y_true.map (fun x => decide (x = c))).any id = false := by
      rw [← Bool.not_eq_true]
      intro hc
      exact h1 ((any_mask_iff_mem y_true c).1 hc)
    simp only [diceAllEntry, ha1]
    simp

/-- Witness for C4 at a concrete input. -/
theorem dice_all_entry_spec_witness :
    dice_all [0, 1] [0, 2] 1 none true false
        = (retainedClasses [0, 1] none true).map (diceAllEntry [0, 1] [0, 2] 1 false)
    ∧ (false = false →
        ((diceAllEntry [0, 1] [0, 2] 1 false 1 = none ↔ ((1 : ℤ) ∉ [(0 : ℤ), 1] ∧ (1 : ℤ) ∉ [(0 : ℤ), 2]))
        ∧ (((1 : ℤ) ∈ [(0 : ℤ), 1] ∨ (1 : ℤ) ∈ [(0 : ℤ), 2]) →
            ∃ q, diceAllEntry [0, 1] [0, 2] 1 false 1 = some q ∧ 0 ≤ q ∧ q ≤ 1)))
    ∧ (false = true → (1 : ℤ) ∉ [(0 : ℤ), 1] →
        diceAllEntry [0, 1] [0, 2] 1 true 1 = none) :=
  dice_all_entry_spec [0, 1] [0, 2] 1 none true false 1 (by norm_num)

/-- Fuel-based chunking of a flat buffer into consecutive rows of `n`
elements, modelling the `reshape(-1, n_classes)` view onto the caller's
array (the fuel, instantiated with the buffer length, only makes the
recursion structural). -/
def chunkRowsAux : ℕ → ℕ → List ℚ → List (List ℚ)
  | _, _, [] => []
  | 0, _, _ :: _ => []
  | fuel + 1, n, x :: l => (x :: l).take n :: chunkRowsAux fuel n ((x :: l).drop n)

/-- The `reshape(-1, n_classes)` view as a list of rows. -/
def chunkRows (n : ℕ) (l : List ℚ) : List (List ℚ) :=
  if n = 0 then [] else chunkRowsAux l.length n l

/-- Contents of the caller-supplied `output` array after
`np_pr_class_entropy(target, output, n_classes)` returns:
`output.reshape(-1, n_classes)` yields a view of the caller's buffer, and
`output /= np.sum(output, -1, keepdims=True)` divides that view in place,
so every element of the caller's array ends up divided by the sum of its
row.  (The subsequent `np.clip` rebinds the local name to a fresh array and
does not write back; the returned entropy vector is computed from that
fresh array and involves a transcendental `log`, which the mutation claims
do not depend on.) -/
def np_pr_class_entropy_buffer (output : List ℚ) (n_classes : ℕ) : List ℚ :=
  ((chunkRows n_classes output).map (fun row => row.map (fun x => x / row.sum))).flatten

lemma chunkRowsAux_flatten (n : ℕ) (hn : 0 < n) :
    ∀ (rows : List (List ℚ)) (fuel : ℕ), rows.flatten.length ≤ fuel →
      (∀ row ∈ rows, row.length = n) → chunkRowsAux fuel n rows.flatten = rows := by
  intro rows
  induction rows with
  | nil =>
      intro fuel _ _
      cases fuel <;> simp [chunkRowsAux]
  | cons row rest ih =>
      intro fuel hfuel hrows
      have hrowlen : row.length = n := hrows row (by simp)
      cases hrow : row with
      | nil =>
          rw [hrow] at hrowlen
          simp at hrowlen
          omega
      | cons a as =>
          subst hrow
          cases fuel with
          | zero =>
              exfalso
              simp [List.flatten_cons] at hfuel
          | succ f =>
              have hflat : ((a :: as) :: rest).flatten = a :: (as ++ rest.flatten) := by
                simp [List.flatten_cons]
              rw [hflat]
              show ((a :: (as ++ rest.flatten)).take n)
                  :: chunkRowsAux f n ((a :: (as ++ rest.flatten)).drop n)
                  = (a :: as) :: rest
              have hlen : as.length + 1 = n := by
                simpa using hrowlen
              have htake : (a :: (as ++ rest.flatten)).take n = a :: as := by
                rw [← hlen, List.take_succ_cons, List.take_left]
              have hdrop : (a :: (as ++ rest.flatten)).drop n = rest.flatten := by
                rw [← hlen, List.drop_succ_cons, List.drop_left]
              rw [htake, hdrop]
              have hfuel2 : rest.flatten.length ≤ f := by
                rw [hflat] at hfuel
                simp only [List.length_cons, List.length_append] at hfuel
                omega
              have hrest : ∀ r ∈ rest, r.length = n := fun r hr => hrows r (by simp [hr])
              rw [ih f hfuel2 hrest]

/-- C9 counterexample: `np_pr_class_entropy` does NOT leave its
caller-supplied `output` array unchanged — for the buffer `[1, 3]` with
`n_classes = 2` the caller's array holds `[1/4, 3/4]` after the call. -/
theorem np_pr_class_entropy_mutates :
    np_pr_class_entropy_buffer [1, 3] 2 ≠ [1, 3] := by
  norm_num [np_pr_class_entropy_buffer, chunkRows, chunkRowsAux]

/-- C9 amended: all functions of the module other than
`np_pr_class_entropy` read their inputs only (they are pure values in this
embedding), but `np_pr_class_entropy` normalizes its `output` argument in
place through the reshape view: viewing the caller's buffer as rows of
`n_classes`, every element is divided by the sum of its row. -/
theorem np_pr_class_entropy_buffer_spec (rows : List (List ℚ)) (n : ℕ)
    (hn : 0 < n) (hrows : ∀ row ∈ rows, row.length = n) :
    np_pr_class_entropy_buffer rows.flatten n
      = (rows.map (fun row => row.map (fun x => x / row.sum))).flatten := by
  unfold np_pr_class_entropy_buffer chunkRows
  have hn0 : ¬(n = 0) := by omega
  simp only [hn0, if_false]
  rw [chunkRowsAux_flatten n hn rows rows.flatten.length le_rfl hrows]

/-- Witness for C9's amended statement at a concrete input. -/
theorem np_pr_class_entropy_buffer_spec_witness :
    np_pr_class_entropy_buffer ([[(1 : ℚ), 3]]).flatten 2
      = ([[(1 : ℚ), 3]].map (fun row => row.map (fun x => x / row.sum))).flatten :=
  np_pr_class_entropy_buffer_spec [[(1 : ℚ), 3]] 2 (by norm_num)
    (by
      intro row hr
      rcases List.mem_singleton.1 hr with rfl
      rfl)

end Metrics
